import Mathlib

/-!
Verification of the document-to-fragment pipeline and hybrid-ranking fusion
engine of the Research-Platform repository.

The Python sources are shallowly embedded as executable Lean definitions:

* `backend/services/chunking.py` (`ChunkingService`): sentence splitting via
  the regex `(?<=[.!?])\s+`, token estimation via `\b\w+\b` word counting,
  `chunk_text`, and the page-aware `chunk_with_page_info`.
* `backend/services/hybrid_search.py` (`HybridSearchService`): min-max score
  normalization, `_combine_results` (dict-based merge keyed by `chunk_id`,
  modelled as an insertion-ordered association list, matching the insertion
  order semantics of Python dicts), and the final stable descending sort by
  combined score (Python `list.sort(key=..., reverse=True)` is a stable sort;
  it is modelled by `List.insertionSort`, which is also stable, so both denote
  the unique stable descending-sorted permutation).
* `backend/services/embeddings.py` (`EmbeddingService.similarity`).
* `backend/tasks/process_document.py` (`process_document_task`): the ingestion
  orchestrator, with the external collaborators (storage, PDF parser,
  embedding model, vector and lexical indexes) given as environment functions
  returning `Except`, and the relational session modelled as explicit state.

Strings manipulated character-by-character by the Python code are modelled as
`List Char`; scores (Python floats) are modelled as exact rationals; character
classes model the ASCII behaviour of Python's `\w` and `\s`.
-/

namespace ResearchPlatform

namespace Chunking

/-- Characters matched by the regex class `\s` (ASCII range), as used by the
sentence-splitting regex in `ChunkingService.chunk_text`. -/
def isWs (c : Char) : Bool :=
  c = ' ' || c = '\t' || c = '\n' || c = '\x0d' || c = '\x0b' || c = '\x0c'

/-- Characters matched by the regex class `\w` (ASCII range), as used by
`ChunkingService.estimate_tokens` via `\b\w+\b`. -/
def isWordChar (c : Char) : Bool :=
  c.isAlphanum || c = '_'

/-- Terminal punctuation of the sentence-boundary regex `(?<=[.!?])\s+`. -/
def isTerminal (c : Char) : Bool :=
  c = '.' || c = '!' || c = '?'

/-- Counts the maximal runs of word characters in a character list; the flag
records whether the previously seen character was a word character.  This is
the number of matches of `\b\w+\b`. -/
def countWords : List Char → Bool → Nat
  | [], _ => 0
  | c :: rest, prev =>
    if isWordChar c then (if prev then 0 else 1) + countWords rest true
    else countWords rest false

/-- Embeds `ChunkingService.estimate_tokens`: the number of matches of
`re.findall(r'\b\w+\b', text)`. -/
def estimate_tokens (text : List Char) : Nat :=
  countWords text false

/-- True when the most recently consumed character (the head of the reversed
accumulator) is terminal punctuation: the lookbehind `(?<=[.!?])`. -/
def headTerminal : List Char → Bool
  | [] => false
  | p :: _ => isTerminal p

/-- Embeds `re.split(r'(?<=[.!?])\s+', text)` as a single left-to-right scan:
a maximal whitespace run immediately preceded by `.`, `!` or `?` is a
separator.  `done` holds the finished sentences, `acc` the reversed characters
of the sentence being accumulated, and `inSep` records whether the scan is
inside a separator run (whose further whitespace is consumed greedily). -/
def splitAux : List Char → List (List Char) → List Char → Bool → List (List Char)
  | [], done, acc, _ => done ++ [acc.reverse]
  | c :: rest, done, acc, inSep =>
    if inSep && isWs c then
      splitAux rest done acc true
    else if isWs c && headTerminal acc then
      splitAux rest (done ++ [acc.reverse]) [] true
    else
      splitAux rest done (c :: acc) false

/-- The sentence units `chunk_text` iterates over. -/
def splitSentences (text : List Char) : List (List Char) :=
  splitAux text [] [] false

/-- Embeds `' '.join(current_chunk)`. -/
def joinSp : List (List Char) → List Char
  | [] => []
  | [s] => s
  | s :: rest => s ++ ' ' :: joinSp rest

/-- A chunk dictionary as produced by `ChunkingService`: keys `chunk_index`,
`text`, `token_count`, `document_id`, and (only after
`chunk_with_page_info`) `page_number`. -/
structure Chunk where
  chunk_index : Nat
  text : List Char
  token_count : Nat
  document_id : Option Int
  page_number : Option Int
deriving Repr, DecidableEq

/-- The backward walk that seeds the next chunk with trailing sentences of the
closed chunk (the `for sent in reversed(current_chunk)` loop): sentences are
taken from `rev` (the reversed closed chunk) while the accumulated token
estimate stays within `overlap`, and the walk stops at the first sentence that
would exceed it.  Returns the seeded sentences in original order together with
their accumulated token estimate. -/
def overlapWalk (overlap : Nat) : List (List Char) → List (List Char) → Nat →
    List (List Char) × Nat
  | [], acc, toks => (acc, toks)
  | sent :: rest, acc, toks =>
    let sent_tokens := estimate_tokens sent
    if toks + sent_tokens ≤ overlap then
      overlapWalk overlap rest (sent :: acc) (toks + sent_tokens)
    else
      (acc, toks)

/-- The overlap seed for a just-closed chunk. -/
def overlapSeed (overlap : Nat) (current_chunk : List (List Char)) :
    List (List Char) × Nat :=
  overlapWalk overlap current_chunk.reverse [] 0

/-- Loop state of `chunk_text`: emitted chunks, the sentences and token count
of the running chunk, and the running chunk index. -/
structure ChunkState where
  chunks : List Chunk
  current_chunk : List (List Char)
  current_tokens : Nat
  chunk_index : Nat
deriving Repr, DecidableEq

/-- One iteration of the `for sentence in sentences` loop of
`ChunkingService.chunk_text`: if adding the sentence would push the running
total strictly above `chunk_size` and the running chunk is non-empty, the
running chunk is emitted and the next one is seeded with the overlap suffix;
the sentence is then appended to the running chunk. -/
def chunkStep (chunk_size overlap : Nat) (document_id : Option Int)
    (st : ChunkState) (sentence : List Char) : ChunkState :=
  let sentence_tokens := estimate_tokens sentence
  let st' :=
    if chunk_size < st.current_tokens + sentence_tokens ∧ st.current_chunk ≠ [] then
      let closed : Chunk :=
        { chunk_index := st.chunk_index, text := joinSp st.current_chunk,
          token_count := st.current_tokens, document_id := document_id,
          page_number := none }
      let seed := overlapSeed overlap st.current_chunk
      { chunks := st.chunks ++ [closed], current_chunk := seed.1,
        current_tokens := seed.2, chunk_index := st.chunk_index + 1 }
    else st
  { st' with current_chunk := st'.current_chunk ++ [sentence],
             current_tokens := st'.current_tokens + sentence_tokens }

/-- Embeds `ChunkingService.chunk_text`. -/
def chunk_text (chunk_size overlap : Nat) (text : List Char)
    (document_id : Option Int) : List Chunk :=
  let sentences := splitSentences text
  let fin := sentences.foldl (chunkStep chunk_size overlap document_id)
    ⟨[], [], 0, 0⟩
  if fin.current_chunk ≠ [] then
    fin.chunks ++
      [{ chunk_index := fin.chunk_index, text := joinSp fin.current_chunk,
         token_count := fin.current_tokens, document_id := document_id,
         page_number := none }]
  else fin.chunks

/-- Embeds the body of the `for page in pages` loop of
`ChunkingService.chunk_with_page_info`: each chunk of the page is stamped
with the page number, receives the running global index, and is appended. -/
def pageFold (chunk_size overlap : Nat) (acc : List Chunk × Nat)
    (page : Int × List Char) : List Chunk × Nat :=
  (chunk_text chunk_size overlap page.2 none).foldl
    (fun a c =>
      (a.1 ++ [{ c with chunk_index := a.2, page_number := some page.1 }],
       a.2 + 1))
    acc

/-- Embeds `ChunkingService.chunk_with_page_info`; a page is a
`(page_number, text)` pair. -/
def chunk_with_page_info (chunk_size overlap : Nat)
    (pages : List (Int × List Char)) : List Chunk :=
  (pages.foldl (pageFold chunk_size overlap) ([], 0)).1

/-- Renumbers the `chunk_index` fields contiguously starting at `i`. -/
def renumberFrom : Nat → List Chunk → List Chunk
  | _, [] => []
  | i, c :: rest => { c with chunk_index := i } :: renumberFrom (i + 1) rest

/-- The spec's description of the page-aware variant, stated independently of
the loop in the code: fragment each page independently, stamp each fragment
with its originating page number, concatenate, and renumber the `index` field
contiguously across the whole document. -/
def specPageChunks (chunk_size overlap : Nat)
    (pages : List (Int × List Char)) : List Chunk :=
  renumberFrom 0
    ((pages.map (fun p =>
      (chunk_text chunk_size overlap p.2 none).map
        (fun c => { c with page_number := some p.1 }))).flatten)

/-- The backward walk keeps its accumulator equal to a reversed prefix of the
remaining sentences, keeps the running total equal to the accumulator's token
sum, and never lets the total exceed `overlap`. -/
lemma overlapWalk_spec (ov : ℕ) :
    ∀ (rest acc : List (List Char)) (toks : ℕ),
    toks = (acc.map estimate_tokens).sum → toks ≤ ov →
    ∃ j, (overlapWalk ov rest acc toks).1 = (rest.take j).reverse ++ acc ∧
      (overlapWalk ov rest acc toks).2 =
        (((overlapWalk ov rest acc toks).1).map estimate_tokens).sum ∧
      (overlapWalk ov rest acc toks).2 ≤ ov := by
  intro rest
  induction rest with
  | nil =>
    intro acc toks hsum hle
    exact ⟨0, by simpa [overlapWalk] using ⟨hsum, hle⟩⟩
  | cons sent rest ih =>
    intro acc toks hsum hle
    by_cases h : toks + estimate_tokens sent ≤ ov
    · have hsum' : toks + estimate_tokens sent =
          ((sent :: acc).map estimate_tokens).sum := by
        simp [hsum]; ring
      obtain ⟨j, h1, h2, h3⟩ := ih (sent :: acc) (toks + estimate_tokens sent) hsum' h
      refine ⟨j + 1, ?_, ?_, ?_⟩
      · simpa [overlapWalk, h, List.take_succ_cons] using h1
      · simpa [overlapWalk, h] using h2
      · simpa [overlapWalk, h] using h3
    · exact ⟨0, by simpa [overlapWalk, h] using ⟨hsum, hle⟩⟩

/-- The overlap seed is a suffix of the closed chunk and its token sum is at
most `overlap`. -/
lemma overlapSeed_spec (ov : ℕ) (l : List (List Char)) :
    (overlapSeed ov l).1 <:+ l ∧
    (((overlapSeed ov l).1).map estimate_tokens).sum ≤ ov := by
  obtain ⟨j, h1, h2, h3⟩ := overlapWalk_spec ov l.reverse [] 0 (by simp) (Nat.zero_le ov)
  rw [overlapSeed] at *
  constructor
  · rw [h1]
    refine ⟨(l.reverse.drop j).reverse, ?_⟩
    rw [List.append_nil, ← List.reverse_append, List.take_append_drop,
      List.reverse_reverse]
  · rw [← h2]
    exact h3

/-- C3: whenever `chunk_text` closes a fragment and opens the next one, the
units seeded into the new fragment (everything in the new running chunk other
than the sentence just appended) form a suffix of the closed fragment's units,
and their cumulative token estimate never exceeds `overlap`. -/
theorem C3_overlap_suffix_bounded (chunk_size overlap : ℕ)
    (document_id : Option Int) (st : ChunkState) (sentence : List Char)
    (hclose : chunk_size < st.current_tokens + estimate_tokens sentence ∧
      st.current_chunk ≠ []) :
    ∃ seed : List (List Char),
      (chunkStep chunk_size overlap document_id st sentence).current_chunk =
        seed ++ [sentence] ∧
      seed <:+ st.current_chunk ∧
      (seed.map estimate_tokens).sum ≤ overlap := by
  obtain ⟨hsuf, hsum⟩ := overlapSeed_spec overlap st.current_chunk
  exact ⟨(overlapSeed overlap st.current_chunk).1, by simp [chunkStep, hclose], hsuf, hsum⟩

/-- Witness for C3 at a concrete closing step: chunk size 1, overlap 10, a
running chunk holding the one-token sentence `"a"`, and incoming sentence
`"b"`. -/
theorem C3_witness :
    ∃ seed : List (List Char),
      (chunkStep 1 10 none ⟨[], [['a']], 1, 0⟩ ['b']).current_chunk =
        seed ++ [['b']] ∧
      seed <:+ [['a']] ∧
      (seed.map estimate_tokens).sum ≤ 10 :=
  C3_overlap_suffix_bounded 1 10 none ⟨[], [['a']], 1, 0⟩ ['b'] (by decide)

/-- C6 fails on the code: fragmenting the empty string yields one fragment,
not zero, because `re.split` returns `[""]` on the empty string and the final
`if current_chunk` check sees the non-empty list `[""]`.  Shown here at
`target_size = 50`, `overlap = 10`. -/
theorem C6_counterexample : chunk_text 50 10 [] none ≠ [] := by decide

/-- C6 amended: for every `target_size` and `overlap`, fragmenting the empty
string yields exactly one fragment, whose text is empty and whose token count
is zero. -/
theorem C6_empty_input (chunk_size overlap : ℕ) (document_id : Option Int) :
    chunk_text chunk_size overlap [] document_id =
      [{ chunk_index := 0, text := [], token_count := 0,
         document_id := document_id, page_number := none }] := by
  simp [chunk_text, splitSentences, splitAux, chunkStep, estimate_tokens,
    countWords, joinSp]

/-- Renumbering distributes over append, continuing the count. -/
lemma renumberFrom_append (n : ℕ) (l₁ l₂ : List Chunk) :
    renumberFrom n (l₁ ++ l₂) =
      renumberFrom n l₁ ++ renumberFrom (n + l₁.length) l₂ := by
  induction l₁ generalizing n with
  | nil => simp [renumberFrom]
  | cons c t ih =>
    have harith : n + 1 + t.length = n + (t.length + 1) := by omega
    simp [renumberFrom, ih (n + 1), harith]

/-- The `chunk_index` fields of a renumbered list are consecutive from `n`. -/
lemma renumberFrom_map_index (n : ℕ) (l : List Chunk) :
    (renumberFrom n l).map Chunk.chunk_index = List.range' n l.length := by
  induction l generalizing n with
  | nil => simp [renumberFrom]
  | cons c t ih => simp [renumberFrom, ih (n + 1), List.range'_succ]

/-- Renumbering preserves length. -/
lemma renumberFrom_length (n : ℕ) (l : List Chunk) :
    (renumberFrom n l).length = l.length := by
  induction l generalizing n with
  | nil => rfl
  | cons c t ih => simp [renumberFrom, ih (n + 1)]

/-- The inner loop of `chunk_with_page_info` over one page's chunks appends
the page's chunks, stamped with the page number and renumbered from the
running counter. -/
lemma pageFold_inner (pn : Int) (cl : List Chunk) :
    ∀ (acc : List Chunk) (n : ℕ),
    cl.foldl
      (fun a c =>
        (a.1 ++ [{ c with chunk_index := a.2, page_number := some pn }],
         a.2 + 1)) (acc, n) =
      (acc ++ renumberFrom n (cl.map (fun c => { c with page_number := some pn })),
       n + cl.length) := by
  induction cl with
  | nil => intro acc n; simp [renumberFrom]
  | cons c t ih =>
    intro acc n
    rw [List.foldl_cons, ih]
    simp [renumberFrom]
    omega

/-- The outer loop of `chunk_with_page_info` appends the flattened, stamped,
renumbered page chunks. -/
lemma pageFold_outer (chunk_size overlap : ℕ) (pages : List (Int × List Char)) :
    ∀ (acc : List Chunk) (n : ℕ),
    pages.foldl (pageFold chunk_size overlap) (acc, n) =
      (acc ++ renumberFrom n
        ((pages.map (fun p =>
          (chunk_text chunk_size overlap p.2 none).map
            (fun c => { c with page_number := some p.1 }))).flatten),
       n + ((pages.map (fun p =>
          (chunk_text chunk_size overlap p.2 none).map
            (fun c => { c with page_number := some p.1 }))).flatten).length) := by
  induction pages with
  | nil => intro acc n; simp [renumberFrom]
  | cons p t ih =>
    intro acc n
    rw [List.foldl_cons]
    show t.foldl (pageFold chunk_size overlap)
      ((chunk_text chunk_size overlap p.2 none).foldl _ (acc, n)) = _
    rw [pageFold_inner, ih]
    rw [List.map_cons, List.flatten_cons, renumberFrom_append,
      List.append_assoc]
    simp
    omega

/-- C9: page-aware fragmenting equals fragmenting each page independently and
concatenating — each fragment is stamped with its originating `page_number`,
the global `index` field is renumbered contiguously `0..k-1` across the whole
document, and the total count is the sum of the per-page counts.  Since each
page is fragmented by an independent `chunk_text` call, overlap is seeded
only within a page, never across a page boundary. -/
theorem C9_page_aware (chunk_size overlap : ℕ) (pages : List (Int × List Char)) :
    chunk_with_page_info chunk_size overlap pages =
      specPageChunks chunk_size overlap pages ∧
    (chunk_with_page_info chunk_size overlap pages).map Chunk.chunk_index =
      List.range (chunk_with_page_info chunk_size overlap pages).length ∧
    (chunk_with_page_info chunk_size overlap pages).length =
      (pages.map (fun p => (chunk_text chunk_size overlap p.2 none).length)).sum := by
  have h := pageFold_outer chunk_size overlap pages [] 0
  have heq : chunk_with_page_info chunk_size overlap pages =
      specPageChunks chunk_size overlap pages := by
    rw [chunk_with_page_info, h, specPageChunks]
    simp
  refine ⟨heq, ?_, ?_⟩
  · rw [heq, specPageChunks, renumberFrom_map_index, renumberFrom_length,
      List.range_eq_range']
  · rw [heq, specPageChunks, renumberFrom_length, List.length_flatten]
    congr 1
    rw [List.map_map]
    simp [Function.comp]

/-- Whether the last character of the list is a word character (`prev` if the
list is empty): the word-run state of `countWords` after consuming the list. -/
def endState : List Char → Bool → Bool
  | [], prev => prev
  | c :: rest, _ => endState rest (isWordChar c)

/-- Word-run counting splits over append through the run state. -/
lemma countWords_append :
    ∀ (xs ys : List Char) (prev : Bool),
    countWords (xs ++ ys) prev = countWords xs prev + countWords ys (endState xs prev) := by
  intro xs
  induction xs with
  | nil => intro ys prev; simp [countWords, endState]
  | cons c t ih =>
    intro ys prev
    by_cases h : isWordChar c = true
    · simp [countWords, endState, h, ih]
      omega
    · simp [countWords, endState, h, ih]

/-- The run state after an appended list depends only on the state after the
first part. -/
lemma endState_append :
    ∀ (xs ys : List Char) (prev : Bool),
    endState (xs ++ ys) prev = endState ys (endState xs prev) := by
  intro xs
  induction xs with
  | nil => intro ys prev; rfl
  | cons c t ih => intro ys prev; simp [endState, ih]

/-- Whitespace characters are not word characters. -/
lemma ws_not_word {c : Char} (h : isWs c = true) : isWordChar c = false := by
  simp [isWs] at h
  rcases h with ((((rfl | rfl) | rfl) | rfl) | rfl) | rfl <;> decide

/-- Terminal punctuation characters are not word characters. -/
lemma terminal_not_word {c : Char} (h : isTerminal c = true) :
    isWordChar c = false := by
  simp [isTerminal] at h
  rcases h with (rfl | rfl) | rfl <;> decide

/-- The total token estimate of the sentences produced by the splitter equals
the word count of the unsplit remainder (plus the finished sentences'):
separators are whitespace runs preceded by punctuation, so no `\b\w+\b` match
ever spans a separator. -/
lemma splitAux_tokens :
    ∀ (cs : List Char) (done : List (List Char)) (acc : List Char) (inSep : Bool),
    (inSep = true → acc = []) →
    ((splitAux cs done acc inSep).map estimate_tokens).sum =
      (done.map estimate_tokens).sum + countWords (acc.reverse ++ cs) false := by
  intro cs
  induction cs with
  | nil =>
    intro done acc inSep _
    simp [splitAux, estimate_tokens]
  | cons c rest ih =>
    intro done acc inSep hinv
    by_cases h1 : (inSep && isWs c) = true
    · obtain ⟨hsep, hws⟩ := Bool.and_eq_true_iff.mp h1
      have hacc : acc = [] := hinv hsep
      subst hacc
      rw [splitAux, if_pos h1]
      rw [ih done [] true (fun _ => rfl)]
      simp [countWords, ws_not_word hws]
    · by_cases h2 : (isWs c && headTerminal acc) = true
      · obtain ⟨hws, hterm⟩ := Bool.and_eq_true_iff.mp h2
        match acc, hterm with
        | p :: t, hterm =>
          rw [splitAux, if_neg h1, if_pos h2]
          rw [ih (done ++ [(p :: t).reverse]) [] true (fun _ => rfl)]
          have hend : endState (p :: t).reverse false = false := by
            rw [List.reverse_cons, endState_append]
            simpa [endState] using terminal_not_word (by simpa [headTerminal] using hterm)
          rw [countWords_append ((p :: t).reverse) (c :: rest) false, hend]
          have hcw : countWords (c :: rest) false = countWords rest false := by
            simp [countWords, ws_not_word hws]
          rw [hcw]
          simp [countWords, estimate_tokens]
          omega
      · rw [splitAux, if_neg h1, if_neg h2]
        rw [ih done (c :: acc) false (by simp)]
        rw [List.reverse_cons, List.append_assoc]
        rfl

/-- The per-sentence token estimates of the splitter sum to the token estimate
of the whole text. -/
lemma splitSentences_tokens (text : List Char) :
    ((splitSentences text).map estimate_tokens).sum = estimate_tokens text := by
  simpa [estimate_tokens] using splitAux_tokens text [] [] false (by simp)

/-- The splitter always produces at least one (possibly empty) sentence. -/
lemma splitAux_ne_nil :
    ∀ (cs : List Char) (done : List (List Char)) (acc : List Char) (inSep : Bool),
    splitAux cs done acc inSep ≠ [] := by
  intro cs
  induction cs with
  | nil => intro done acc inSep; simp [splitAux]
  | cons c rest ih =>
    intro done acc inSep
    rw [splitAux]
    by_cases h1 : (inSep && isWs c) = true
    · simpa [h1] using ih done acc true
    · by_cases h2 : (isWs c && headTerminal acc) = true
      · simpa [h1, h2] using ih (done ++ [acc.reverse]) [] true
      · simpa [h1, h2] using ih done (c :: acc) false

/-- While every running total stays within `chunk_size`, the `chunk_text` loop
never closes a fragment: it just accumulates all sentences. -/
lemma foldl_no_close (chunk_size overlap : ℕ) (document_id : Option Int) :
    ∀ (sents : List (List Char)) (chks : List Chunk) (cur : List (List Char))
      (curT idx : ℕ),
    curT + (sents.map estimate_tokens).sum ≤ chunk_size →
    sents.foldl (chunkStep chunk_size overlap document_id) ⟨chks, cur, curT, idx⟩ =
      ⟨chks, cur ++ sents, curT + (sents.map estimate_tokens).sum, idx⟩ := by
  intro sents
  induction sents with
  | nil => intro chks cur curT idx _; simp
  | cons s rest ih =>
    intro chks cur curT idx hle
    have hnoclose : ¬ (chunk_size < curT + estimate_tokens s ∧ cur ≠ []) := by
      intro hc
      have : curT + estimate_tokens s ≤ chunk_size := by
        have := hle
        simp [List.map_cons, List.sum_cons] at this
        omega
      omega
    rw [List.foldl_cons]
    show rest.foldl (chunkStep chunk_size overlap document_id)
      (chunkStep chunk_size overlap document_id ⟨chks, cur, curT, idx⟩ s) = _
    rw [chunkStep]
    simp only [hnoclose, if_false]
    rw [ih chks (cur ++ [s]) (curT + estimate_tokens s) idx
      (by simp [List.map_cons, List.sum_cons] at hle ⊢; omega)]
    simp [List.append_assoc, List.map_cons, List.sum_cons]
    omega

/-- C8: a non-empty input whose total estimated token count is at most
`target_size` produces exactly one fragment containing all sentence units in
their original order (joined back with single spaces, as the code does). -/
theorem C8_single_fragment (chunk_size overlap : ℕ) (text : List Char)
    (_hne : text ≠ [])
    (hsize : estimate_tokens text ≤ chunk_size) :
    chunk_text chunk_size overlap text none =
      [{ chunk_index := 0, text := joinSp (splitSentences text),
         token_count := estimate_tokens text, document_id := none,
         page_number := none }] := by
  rw [chunk_text]
  have hs := splitSentences_tokens text
  rw [foldl_no_close chunk_size overlap none (splitSentences text) [] [] 0 0
    (by rw [hs]; omega)]
  have hnn : splitSentences text ≠ [] := by
    simpa [splitSentences] using splitAux_ne_nil text [] [] false
  simp only [List.nil_append, Nat.zero_add]
  rw [if_pos hnn, hs]

/-- Witness for C8 on the two-character text `"hi"` (one estimated token) with
`target_size = 5`. -/
theorem C8_witness :
    chunk_text 5 0 ['h', 'i'] none =
      [{ chunk_index := 0, text := joinSp (splitSentences ['h', 'i']),
         token_count := estimate_tokens ['h', 'i'], document_id := none,
         page_number := none }] :=
  C8_single_fragment 5 0 ['h', 'i'] (by decide) (by decide)

end Chunking

namespace Hybrid

/-- A vector-search hit as returned by `VectorDBService.search`: a `score`
and a payload carrying `chunk_id`, `document_id`, `text`, and further
metadata keys (here `payload_extra`, the payload minus those three keys). -/
structure VectorHit where
  chunk_id : Nat
  document_id : Nat
  text : String
  score : ℚ
  payload_extra : List (String × String)
deriving Repr, DecidableEq

/-- A keyword-search hit as returned by `SearchEngineService.search`:
`chunk_id`, `document_id`, `text`, `score`, the optional `highlighted`
excerpt, and the remaining `metadata`. -/
structure KeywordHit where
  chunk_id : Nat
  document_id : Nat
  text : String
  score : ℚ
  highlighted : Option String
  metadata : List (String × String)
deriving Repr, DecidableEq

/-- A value of the `results_map` dictionary built by
`HybridSearchService._combine_results`.  `highlighted = none` models both an
absent `highlighted` key and a present `None` value — the output is read with
`result.get("highlighted")`, which does not distinguish the two. -/
structure Merged where
  document_id : Nat
  text : String
  vector_score : ℚ
  keyword_score : ℚ
  highlighted : Option String
  metadata : List (String × String)
deriving Repr, DecidableEq

/-- An entry of the final combined list: the merged fields plus the combined
`score`. -/
structure CombinedResult where
  chunk_id : Nat
  document_id : Nat
  text : String
  score : ℚ
  vector_score : ℚ
  keyword_score : ℚ
  highlighted_text : Option String
  metadata : List (String × String)
deriving Repr, DecidableEq

/-- The degenerate-spread threshold `1e-10` of `_normalize_scores`, written in
a kernel-computable form (see `scoreEps_eq`). -/
def scoreEps : ℚ := mkRat 1 (10 ^ 10)

lemma scoreEps_eq : scoreEps = 1 / 10 ^ 10 := by
  rw [scoreEps, Rat.mkRat_eq_div]
  norm_num

/-- Embeds `HybridSearchService._normalize_scores`, generically in the result
type: `getS` reads the `score` field, `setS` writes it.  Empty input returns
empty; when `max - min < 1e-10` every score becomes `1.0`; otherwise each
score is min-max scaled. -/
def _normalize_scores {α : Type} (getS : α → ℚ) (setS : ℚ → α → α)
    (results : List α) : List α :=
  match results with
  | [] => []
  | r0 :: rest =>
    let min_score := (rest.map getS).foldl min (getS r0)
    let max_score := (rest.map getS).foldl max (getS r0)
    if max_score - min_score < scoreEps then
      (r0 :: rest).map (setS 1)
    else
      (r0 :: rest).map (fun r => setS ((getS r - min_score) / (max_score - min_score)) r)

/-- Score normalization of the vector result list. -/
def normVec (l : List VectorHit) : List VectorHit :=
  _normalize_scores VectorHit.score (fun s r => { r with score := s }) l

/-- Score normalization of the keyword result list. -/
def normKw (l : List KeywordHit) : List KeywordHit :=
  _normalize_scores KeywordHit.score (fun s r => { r with score := s }) l

/-- The `results_map` value built from a vector hit (`keyword_score = 0.0`,
no `highlighted` key). -/
def mergedOfVector (r : VectorHit) : Merged :=
  { document_id := r.document_id, text := r.text, vector_score := r.score,
    keyword_score := 0, highlighted := none, metadata := r.payload_extra }

/-- The `results_map` value built from a keyword hit not present in the map
(`vector_score = 0.0`). -/
def mergedOfKeyword (r : KeywordHit) : Merged :=
  { document_id := r.document_id, text := r.text, vector_score := 0,
    keyword_score := r.score, highlighted := r.highlighted,
    metadata := r.metadata }

/-- Python dict assignment `m[k] = v` on an insertion-ordered association
list: replaces the value in place if the key exists, else appends. -/
def setEntry : List (Nat × Merged) → Nat → Merged → List (Nat × Merged)
  | [], k, v => [(k, v)]
  | (k', v') :: rest, k, v =>
    if k' = k then (k', v) :: rest else (k', v') :: setEntry rest k v

/-- In-place update of the value at an existing key (mutating two fields of
`m[k]`, as the keyword pass does). -/
def updateEntry : List (Nat × Merged) → Nat → (Merged → Merged) → List (Nat × Merged)
  | [], _, _ => []
  | (k', v') :: rest, k, f =>
    if k' = k then (k', f v') :: rest else (k', v') :: updateEntry rest k f

/-- Python `chunk_id in results_map`. -/
def hasKey (m : List (Nat × Merged)) (k : Nat) : Bool :=
  m.any (fun p => p.1 = k)

/-- The first `for result in vector_results` loop body of
`_combine_results`. -/
def addVector (m : List (Nat × Merged)) (r : VectorHit) : List (Nat × Merged) :=
  setEntry m r.chunk_id (mergedOfVector r)

/-- The second `for result in keyword_results` loop body of
`_combine_results`: update `keyword_score` and `highlighted` when the key
exists, else insert a keyword-only entry. -/
def addKeyword (m : List (Nat × Merged)) (r : KeywordHit) : List (Nat × Merged) :=
  if hasKey m r.chunk_id then
    updateEntry m r.chunk_id
      (fun e => { e with keyword_score := r.score, highlighted := r.highlighted })
  else
    m ++ [(r.chunk_id, mergedOfKeyword r)]

/-- The final loop of `_combine_results`: combined score
`vector_score * vector_weight + keyword_score * keyword_weight` with
`keyword_weight = 1 - vector_weight`. -/
def toCombined (vector_weight : ℚ) (p : Nat × Merged) : CombinedResult :=
  { chunk_id := p.1, document_id := p.2.document_id, text := p.2.text,
    score := p.2.vector_score * vector_weight +
      p.2.keyword_score * (1 - vector_weight),
    vector_score := p.2.vector_score, keyword_score := p.2.keyword_score,
    highlighted_text := p.2.highlighted, metadata := p.2.metadata }

/-- Embeds `HybridSearchService._combine_results`: normalize both sets, build
the insertion-ordered map keyed by `chunk_id`, then emit combined entries in
map order. -/
def _combine_results (vector_results : List VectorHit)
    (keyword_results : List KeywordHit) (vector_weight : ℚ) :
    List CombinedResult :=
  ((normKw keyword_results).foldl addKeyword
      ((normVec vector_results).foldl addVector [])).map (toCombined vector_weight)

/-- Descending order on combined scores, used by
`combined.sort(key=lambda x: x["score"], reverse=True)`. -/
def scoreGE (a b : CombinedResult) : Prop :=
  b.score ≤ a.score

instance : DecidableRel scoreGE := fun a b =>
  inferInstanceAs (Decidable (b.score ≤ a.score))

instance : IsTotal CombinedResult scoreGE :=
  ⟨fun a b => (le_total b.score a.score).elim Or.inl Or.inr⟩

instance : IsTrans CombinedResult scoreGE :=
  ⟨fun _ _ _ hab hbc => le_trans hbc hab⟩

/-- The sort step of `HybridSearchService.search`.  Python's `list.sort` is a
stable sort; with `reverse=True` equal keys keep their original relative
order.  `List.insertionSort` is likewise stable, and any two stable sorts of
the same list under the same total preorder coincide. -/
def sortCombined (l : List CombinedResult) : List CombinedResult :=
  l.insertionSort scoreGE

/-- The pure fusion pipeline of `HybridSearchService.search` (everything after
the two collaborator calls, before the `[:limit]` slice): combine, then sort
descending by combined score. -/
def hybridFuse (vector_results : List VectorHit)
    (keyword_results : List KeywordHit) (vector_weight : ℚ) :
    List CombinedResult :=
  sortCombined (_combine_results vector_results keyword_results vector_weight)

lemma hasKey_iff (m : List (Nat × Merged)) (k : Nat) :
    hasKey m k = true ↔ k ∈ m.map Prod.fst := by
  simp [hasKey, List.any_eq_true, List.mem_map]

lemma keys_setEntry (k : Nat) (v : Merged) :
    ∀ m : List (Nat × Merged),
    (setEntry m k v).map Prod.fst =
      if k ∈ m.map Prod.fst then m.map Prod.fst else m.map Prod.fst ++ [k] := by
  intro m
  induction m with
  | nil => simp [setEntry]
  | cons p rest ih =>
    obtain ⟨k₁, v₁⟩ := p
    by_cases h : k₁ = k
    · subst h
      simp [setEntry]
    · have hne : ¬ k = k₁ := fun hh => h hh.symm
      rw [setEntry, if_neg h]
      by_cases hk : k ∈ rest.map Prod.fst
      · rw [List.map_cons, List.map_cons, if_pos (by simp [hk]), ih, if_pos hk]
      · rw [List.map_cons, List.map_cons, if_neg (by simp [hne, hk]), ih,
          if_neg hk, List.cons_append]

lemma keys_updateEntry (k : Nat) (f : Merged → Merged) :
    ∀ m : List (Nat × Merged),
    (updateEntry m k f).map Prod.fst = m.map Prod.fst := by
  intro m
  induction m with
  | nil => rfl
  | cons p rest ih =>
    obtain ⟨k₁, v₁⟩ := p
    by_cases h : k₁ = k
    · rw [updateEntry, if_pos h]
      simp
    · rw [updateEntry, if_neg h, List.map_cons, List.map_cons, ih]

lemma mem_setEntry {k c : Nat} {v e : Merged} :
    ∀ {m : List (Nat × Merged)},
    (c, e) ∈ setEntry m k v → (c, e) ∈ m ∨ (c = k ∧ e = v) := by
  intro m
  induction m with
  | nil => intro h; simpa [setEntry] using h
  | cons p rest ih =>
    obtain ⟨k₁, v₁⟩ := p
    intro h
    by_cases hk : k₁ = k
    · rw [setEntry, if_pos hk] at h
      rcases List.mem_cons.mp h with h | h
      · right
        obtain ⟨h1, h2⟩ := Prod.mk.injEq .. ▸ h
        exact ⟨h1.trans hk, h2⟩
      · exact Or.inl (List.mem_cons_of_mem _ h)
    · rw [setEntry, if_neg hk] at h
      rcases List.mem_cons.mp h with h | h
      · exact Or.inl (h ▸ List.mem_cons_self _ _)
      · rcases ih h with h | h
        · exact Or.inl (List.mem_cons_of_mem _ h)
        · exact Or.inr h

lemma mem_setEntry_ne {k c : Nat} {v e : Merged} (hne : c ≠ k) :
    ∀ {m : List (Nat × Merged)},
    (c, e) ∈ setEntry m k v ↔ (c, e) ∈ m := by
  intro m
  induction m with
  | nil => simp [setEntry, hne]
  | cons p rest ih =>
    obtain ⟨k₁, v₁⟩ := p
    by_cases hk : k₁ = k
    · subst hk
      rw [setEntry, if_pos rfl]
      constructor
      · intro h
        rcases List.mem_cons.mp h with h | h
        · exact absurd (Prod.mk.injEq .. ▸ h).1 hne
        · exact List.mem_cons_of_mem _ h
      · intro h
        rcases List.mem_cons.mp h with h | h
        · exact absurd (Prod.mk.injEq .. ▸ h).1 hne
        · exact List.mem_cons_of_mem _ h
    · rw [setEntry, if_neg hk, List.mem_cons, List.mem_cons, ih]

lemma mem_updateEntry {k c : Nat} {f : Merged → Merged} {e : Merged} :
    ∀ {m : List (Nat × Merged)},
    (c, e) ∈ updateEntry m k f →
    (c, e) ∈ m ∨ ∃ e₀, (c, e₀) ∈ m ∧ c = k ∧ e = f e₀ := by
  intro m
  induction m with
  | nil => intro h; simp [updateEntry] at h
  | cons p rest ih =>
    obtain ⟨k₁, v₁⟩ := p
    intro h
    by_cases hk : k₁ = k
    · rw [updateEntry, if_pos hk] at h
      rcases List.mem_cons.mp h with h | h
      · obtain ⟨h1, h2⟩ := Prod.mk.injEq .. ▸ h
        refine Or.inr ⟨v₁, ?_, h1.trans hk, h2⟩
        rw [h1]
        exact List.mem_cons_self _ _
      · exact Or.inl (List.mem_cons_of_mem _ h)
    · rw [updateEntry, if_neg hk] at h
      rcases List.mem_cons.mp h with h | h
      · exact Or.inl (h ▸ List.mem_cons_self _ _)
      · rcases ih h with h | ⟨e₀, h1, h2, h3⟩
        · exact Or.inl (List.mem_cons_of_mem _ h)
        · exact Or.inr ⟨e₀, List.mem_cons_of_mem _ h1, h2, h3⟩

lemma mem_updateEntry_ne {k c : Nat} {f : Merged → Merged} {e : Merged}
    (hne : c ≠ k) :
    ∀ {m : List (Nat × Merged)},
    (c, e) ∈ updateEntry m k f ↔ (c, e) ∈ m := by
  intro m
  induction m with
  | nil => simp [updateEntry]
  | cons p rest ih =>
    obtain ⟨k₁, v₁⟩ := p
    by_cases hk : k₁ = k
    · subst hk
      rw [updateEntry, if_pos rfl]
      constructor
      · intro h
        rcases List.mem_cons.mp h with h | h
        · exact absurd (Prod.mk.injEq .. ▸ h).1 hne
        · exact List.mem_cons_of_mem _ h
      · intro h
        rcases List.mem_cons.mp h with h | h
        · exact absurd (Prod.mk.injEq .. ▸ h).1 hne
        · exact List.mem_cons_of_mem _ h
    · rw [updateEntry, if_neg hk, List.mem_cons, List.mem_cons, ih]

lemma mem_updateEntry_key {k : Nat} {f : Merged → Merged} {e : Merged} :
    ∀ {m : List (Nat × Merged)},
    (m.map Prod.fst).Nodup → (k, e) ∈ updateEntry m k f →
    ∃ e₀, (k, e₀) ∈ m ∧ e = f e₀ := by
  intro m
  induction m with
  | nil => intro _ h; simp [updateEntry] at h
  | cons p rest ih =>
    obtain ⟨k₁, v₁⟩ := p
    intro hnd h
    rw [List.map_cons, List.nodup_cons] at hnd
    by_cases hk : k₁ = k
    · subst hk
      rw [updateEntry, if_pos rfl] at h
      rcases List.mem_cons.mp h with h | h
      · exact ⟨v₁, List.mem_cons_self _ _, (Prod.mk.injEq .. ▸ h).2⟩
      · exfalso
        exact hnd.1 (List.mem_map.mpr ⟨(k₁, e), h, rfl⟩)
    · rw [updateEntry, if_neg hk] at h
      rcases List.mem_cons.mp h with h | h
      · exact absurd (Prod.mk.injEq .. ▸ h).1 (fun hh => hk hh.symm)
      · obtain ⟨e₀, h1, h2⟩ := ih hnd.2 h
        exact ⟨e₀, List.mem_cons_of_mem _ h1, h2⟩

/-- Key evolution of the insertion-ordered map: each id is appended on first
sight and left in place afterwards. -/
def foldIds (acc : List Nat) (ids : List Nat) : List Nat :=
  ids.foldl (fun a c => if c ∈ a then a else a ++ [c]) acc

lemma foldIds_append (acc a b : List Nat) :
    foldIds acc (a ++ b) = foldIds (foldIds acc a) b :=
  List.foldl_append ..

lemma mem_foldIds {c : Nat} :
    ∀ (ids acc : List Nat), c ∈ foldIds acc ids ↔ c ∈ acc ∨ c ∈ ids := by
  intro ids
  induction ids with
  | nil => intro acc; simp [foldIds]
  | cons x rest ih =>
    intro acc
    by_cases hx : x ∈ acc
    · rw [foldIds, List.foldl_cons, if_pos hx]
      rw [show List.foldl _ acc rest = foldIds acc rest from rfl, ih]
      constructor
      · rintro (h | h)
        · exact Or.inl h
        · exact Or.inr (List.mem_cons_of_mem _ h)
      · rintro (h | h)
        · exact Or.inl h
        · rcases List.mem_cons.mp h with h | h
          · exact Or.inl (h ▸ hx)
          · exact Or.inr h
    · rw [foldIds, List.foldl_cons, if_neg hx]
      rw [show List.foldl _ (acc ++ [x]) rest = foldIds (acc ++ [x]) rest from rfl, ih]
      simp [List.mem_append, List.mem_cons]
      tauto

lemma nodup_foldIds :
    ∀ (ids acc : List Nat), acc.Nodup → (foldIds acc ids).Nodup := by
  intro ids
  induction ids with
  | nil => intro acc h; exact h
  | cons x rest ih =>
    intro acc h
    by_cases hx : x ∈ acc
    · rw [foldIds, List.foldl_cons, if_pos hx]
      exact ih acc h
    · rw [foldIds, List.foldl_cons, if_neg hx]
      exact ih (acc ++ [x]) (by simp [List.nodup_append, h, hx])

/-- Index of the first occurrence of `c` (the list's length if absent). -/
def firstIdx : List Nat → Nat → Nat
  | [], _ => 0
  | x :: xs, c => if x = c then 0 else firstIdx xs c + 1

lemma firstIdx_append_mem {c : Nat} :
    ∀ {p : List Nat} (r : List Nat), c ∈ p → firstIdx (p ++ r) c = firstIdx p c := by
  intro p
  induction p with
  | nil => intro r h; simp at h
  | cons x xs ih =>
    intro r h
    by_cases hx : x = c
    · simp [firstIdx, hx]
    · rcases List.mem_cons.mp h with h | h
      · exact absurd h.symm hx
      · simp [firstIdx, hx, ih r h]

lemma firstIdx_append_not_mem {c : Nat} :
    ∀ {p : List Nat} (r : List Nat), c ∉ p →
      firstIdx (p ++ r) c = p.length + firstIdx r c := by
  intro p
  induction p with
  | nil => intro r _; simp [firstIdx]
  | cons x xs ih =>
    intro r h
    have hx : ¬ x = c := fun hh => h (hh ▸ List.mem_cons_self _ _)
    have h' : c ∉ xs := fun hh => h (List.mem_cons_of_mem _ hh)
    simp [firstIdx, hx, ih r h']
    omega

lemma firstIdx_lt_length {c : Nat} :
    ∀ {p : List Nat}, c ∈ p → firstIdx p c < p.length := by
  intro p
  induction p with
  | nil => intro h; simp at h
  | cons x xs ih =>
    intro h
    by_cases hx : x = c
    · simp [firstIdx, hx]
    · rcases List.mem_cons.mp h with h | h
      · exact absurd h.symm hx
      · simpa [firstIdx, hx] using ih h

/-- Ids enter the map in order of first occurrence in the processed stream, so
the accumulated key list is strictly increasing in first-occurrence index. -/
lemma foldIds_rank (S : List Nat) :
    ∀ (rest processed acc : List Nat),
    S = processed ++ rest →
    (∀ c, c ∈ acc ↔ c ∈ processed) →
    acc.Pairwise (fun a b => firstIdx S a < firstIdx S b) →
    (foldIds acc rest).Pairwise (fun a b => firstIdx S a < firstIdx S b) := by
  intro rest
  induction rest with
  | nil => intro processed acc _ _ hp; exact hp
  | cons x rest' ih =>
    intro processed acc hS hmem hp
    by_cases hx : x ∈ acc
    · rw [foldIds, List.foldl_cons, if_pos hx]
      refine ih (processed ++ [x]) acc (by simpa using hS) ?_ hp
      intro c
      rw [hmem c]
      constructor
      · intro h; exact List.mem_append.mpr (Or.inl h)
      · intro h
        rcases List.mem_append.mp h with h | h
        · exact h
        · have : c = x := by simpa using h
          exact this ▸ (hmem x).mp hx
    · rw [foldIds, List.foldl_cons, if_neg hx]
      have hxp : x ∉ processed := fun hh => hx ((hmem x).mpr hh)
      have hrank : ∀ a ∈ acc, firstIdx S a < firstIdx S x := by
        intro a ha
        have hap : a ∈ processed := (hmem a).mp ha
        have h1 : firstIdx S a < processed.length := by
          rw [hS, firstIdx_append_mem _ hap]
          exact firstIdx_lt_length hap
        have h2 : processed.length ≤ firstIdx S x := by
          rw [hS, firstIdx_append_not_mem _ hxp]
          omega
        omega
      refine ih (processed ++ [x]) (acc ++ [x]) (by simpa using hS) ?_ ?_
      · intro c
        simp only [List.mem_append, List.mem_singleton]
        rw [hmem c]
      · rw [List.pairwise_append]
        refine ⟨hp, List.pairwise_singleton _ _, ?_⟩
        intro a ha b hb
        have : b = x := by simpa using hb
        exact this ▸ hrank a ha

lemma keys_addKeyword (m : List (Nat × Merged)) (r : KeywordHit) :
    (addKeyword m r).map Prod.fst =
      if r.chunk_id ∈ m.map Prod.fst then m.map Prod.fst
      else m.map Prod.fst ++ [r.chunk_id] := by
  rw [addKeyword]
  by_cases h : r.chunk_id ∈ m.map Prod.fst
  · rw [if_pos ((hasKey_iff m r.chunk_id).mpr h), keys_updateEntry, if_pos h]
  · rw [if_neg (fun hh => h ((hasKey_iff m r.chunk_id).mp hh)), if_neg h]
    simp

lemma keys_foldVector :
    ∀ (l : List VectorHit) (m : List (Nat × Merged)),
    (l.foldl addVector m).map Prod.fst =
      foldIds (m.map Prod.fst) (l.map VectorHit.chunk_id) := by
  intro l
  induction l with
  | nil => intro m; rfl
  | cons r rest ih =>
    intro m
    rw [List.foldl_cons, ih]
    simp only [addVector]
    rw [keys_setEntry]
    rfl

lemma keys_foldKeyword :
    ∀ (l : List KeywordHit) (m : List (Nat × Merged)),
    (l.foldl addKeyword m).map Prod.fst =
      foldIds (m.map Prod.fst) (l.map KeywordHit.chunk_id) := by
  intro l
  induction l with
  | nil => intro m; rfl
  | cons r rest ih =>
    intro m
    rw [List.foldl_cons, ih, keys_addKeyword]
    rfl

/-- Normalization only rewrites the score: any field reader unaffected by the
score setter is preserved pointwise. -/
lemma norm_map_field {α β : Type} (getS : α → ℚ) (setS : ℚ → α → α)
    (g : α → β) (hg : ∀ s r, g (setS s r) = g r) (l : List α) :
    (_normalize_scores getS setS l).map g = l.map g := by
  cases l with
  | nil => rfl
  | cons r0 rest =>
    rw [_normalize_scores]
    split
    · rw [List.map_map]
      exact List.map_congr_left (fun r _ => hg 1 r)
    · rw [List.map_map]
      exact List.map_congr_left (fun r _ => hg _ r)

lemma normVec_ids (l : List VectorHit) :
    (normVec l).map VectorHit.chunk_id = l.map VectorHit.chunk_id :=
  norm_map_field VectorHit.score (fun s r => { r with score := s })
    VectorHit.chunk_id (fun _ _ => rfl) l

lemma normKw_ids (l : List KeywordHit) :
    (normKw l).map KeywordHit.chunk_id = l.map KeywordHit.chunk_id :=
  norm_map_field KeywordHit.score (fun s r => { r with score := s })
    KeywordHit.chunk_id (fun _ _ => rfl) l

/-- Every normalized result is an original result with only the score
rewritten. -/
lemma mem_norm {α : Type} (getS : α → ℚ) (setS : ℚ → α → α) {l : List α}
    {r' : α} (h : r' ∈ _normalize_scores getS setS l) :
    ∃ r ∈ l, ∃ s, r' = setS s r := by
  cases l with
  | nil => simp [_normalize_scores] at h
  | cons r0 rest =>
    rw [_normalize_scores] at h
    split at h
    · obtain ⟨r, hr, hs⟩ := List.mem_map.mp h
      exact ⟨r, hr, 1, hs.symm⟩
    · obtain ⟨r, hr, hs⟩ := List.mem_map.mp h
      exact ⟨r, hr, _, hs.symm⟩

/-- Every entry after the vector pass either predates it or is the merged form
of a processed vector hit. -/
lemma mem_foldVector :
    ∀ (l : List VectorHit) (m : List (Nat × Merged)) (c : Nat) (e : Merged),
    (c, e) ∈ l.foldl addVector m →
    (c, e) ∈ m ∨ ∃ r ∈ l, r.chunk_id = c ∧ e = mergedOfVector r := by
  intro l
  induction l with
  | nil => intro m c e h; exact Or.inl h
  | cons r rest ih =>
    intro m c e h
    rw [List.foldl_cons] at h
    rcases ih (addVector m r) c e h with h | ⟨r', hr', h1, h2⟩
    · rcases mem_setEntry h with h | ⟨h1, h2⟩
      · exact Or.inl h
      · exact Or.inr ⟨r, List.mem_cons_self _ _, h1.symm, h2⟩
    · exact Or.inr ⟨r', List.mem_cons_of_mem _ hr', h1, h2⟩

/-- Entries whose key never occurs in the keyword list are untouched by the
keyword pass. -/
lemma kw_untouched :
    ∀ (l : List KeywordHit) (m : List (Nat × Merged)) (c : Nat) (e : Merged),
    (c, e) ∈ l.foldl addKeyword m → c ∉ l.map KeywordHit.chunk_id →
    (c, e) ∈ m := by
  intro l
  induction l with
  | nil => intro m c e h _; exact h
  | cons r rest ih =>
    intro m c e h hc
    have hcr : c ≠ r.chunk_id := fun hh => hc (by simp [hh])
    have hcrest : c ∉ rest.map KeywordHit.chunk_id := fun hh => hc (by simp [hh])
    rw [List.foldl_cons] at h
    have h' := ih (addKeyword m r) c e h hcrest
    rw [addKeyword] at h'
    split at h'
    · exact (mem_updateEntry_ne hcr).mp h'
    · rcases List.mem_append.mp h' with h' | h'
      · exact h'
      · exact absurd (by simpa using congrArg Prod.fst (List.mem_singleton.mp h')) hcr

/-- The keyword pass preserves any merged-value invariant that its update
function preserves and that keyword-only insertions satisfy. -/
lemma kw_invariant (P : Nat → Merged → Prop)
    (hupd : ∀ c e r, P c e →
      P c { e with keyword_score := KeywordHit.score r,
                   highlighted := KeywordHit.highlighted r })
    (hnew : ∀ r : KeywordHit, P r.chunk_id (mergedOfKeyword r)) :
    ∀ (l : List KeywordHit) (m : List (Nat × Merged)),
    (∀ c e, (c, e) ∈ m → P c e) →
    ∀ c e, (c, e) ∈ l.foldl addKeyword m → P c e := by
  intro l
  induction l with
  | nil => intro m hm c e h; exact hm c e h
  | cons r rest ih =>
    intro m hm c e h
    rw [List.foldl_cons] at h
    refine ih (addKeyword m r) ?_ c e h
    intro c' e' h'
    rw [addKeyword] at h'
    split at h'
    · rcases mem_updateEntry h' with h' | ⟨e₀, h1, h2, h3⟩
      · exact hm c' e' h'
      · exact h3 ▸ hupd c' e₀ r (hm c' e₀ h1)
    · rcases List.mem_append.mp h' with h' | h'
      · exact hm c' e' h'
      · have := List.mem_singleton.mp h'
        have h1 : c' = r.chunk_id := by simpa using congrArg Prod.fst this
        have h2 : e' = mergedOfKeyword r := by simpa using congrArg Prod.snd this
        exact h1 ▸ h2 ▸ hnew r

/-- Keys only grow along the keyword pass. -/
lemma keys_mono_addKeyword {m : List (Nat × Merged)} {r : KeywordHit} {c : Nat}
    (h : c ∈ m.map Prod.fst) : c ∈ (addKeyword m r).map Prod.fst := by
  rw [keys_addKeyword]
  split
  · exact h
  · exact List.mem_append.mpr (Or.inl h)

/-- Nodup keys are preserved by one keyword step. -/
lemma keys_nodup_addKeyword {m : List (Nat × Merged)} {r : KeywordHit}
    (h : (m.map Prod.fst).Nodup) : ((addKeyword m r).map Prod.fst).Nodup := by
  rw [keys_addKeyword]
  split
  · exact h
  · simp_all [List.nodup_append]

/-- For keys already present before the keyword pass, the fields the keyword
pass never writes (text, document id, metadata, vector score) survive it. -/
lemma kw_base :
    ∀ (l : List KeywordHit) (m : List (Nat × Merged)),
    (m.map Prod.fst).Nodup →
    ∀ c e, (c, e) ∈ l.foldl addKeyword m → c ∈ m.map Prod.fst →
    ∃ e₀, (c, e₀) ∈ m ∧ e.text = e₀.text ∧ e.document_id = e₀.document_id ∧
      e.metadata = e₀.metadata ∧ e.vector_score = e₀.vector_score := by
  intro l
  induction l with
  | nil =>
    intro m _ c e h _
    exact ⟨e, h, rfl, rfl, rfl, rfl⟩
  | cons r rest ih =>
    intro m hnd c e h hc
    rw [List.foldl_cons] at h
    obtain ⟨e₁, h1, ht, hd, hm, hv⟩ := ih (addKeyword m r)
      (keys_nodup_addKeyword hnd) c e h (keys_mono_addKeyword hc)
    rw [addKeyword] at h1
    by_cases hkm : hasKey m r.chunk_id = true
    · rw [if_pos hkm] at h1
      by_cases hcr : c = r.chunk_id
      · subst hcr
        obtain ⟨e₀, h2, h3⟩ := mem_updateEntry_key hnd h1
        exact ⟨e₀, h2, by rw [ht, h3], by rw [hd, h3], by rw [hm, h3],
          by rw [hv, h3]⟩
      · exact ⟨e₁, (mem_updateEntry_ne hcr).mp h1, ht, hd, hm, hv⟩
    · rw [if_neg hkm] at h1
      rcases List.mem_append.mp h1 with h1 | h1
      · exact ⟨e₁, h1, ht, hd, hm, hv⟩
      · exfalso
        have h2 : c = r.chunk_id := by
          simpa using congrArg Prod.fst (List.mem_singleton.mp h1)
        exact hkm ((hasKey_iff m r.chunk_id).mpr (h2 ▸ hc))

/-- For keys that do occur in the keyword list, the final entry's
keyword score and highlighted text come from a keyword hit with that key. -/
lemma kw_upd :
    ∀ (l : List KeywordHit) (m : List (Nat × Merged)),
    (m.map Prod.fst).Nodup →
    ∀ c e, (c, e) ∈ l.foldl addKeyword m → c ∈ l.map KeywordHit.chunk_id →
    ∃ r ∈ l, r.chunk_id = c ∧ e.keyword_score = r.score ∧
      e.highlighted = r.highlighted := by
  intro l
  induction l with
  | nil => intro m _ c e _ hc; simp at hc
  | cons r rest ih =>
    intro m hnd c e h hc
    rw [List.foldl_cons] at h
    by_cases hcrest : c ∈ rest.map KeywordHit.chunk_id
    · obtain ⟨r', hr', h1, h2, h3⟩ := ih (addKeyword m r)
        (keys_nodup_addKeyword hnd) c e h hcrest
      exact ⟨r', List.mem_cons_of_mem _ hr', h1, h2, h3⟩
    · have hcr : c = r.chunk_id := by
        rw [List.map_cons, List.mem_cons] at hc
        rcases hc with h' | h'
        · exact h'
        · exact absurd h' hcrest
      have h' := kw_untouched rest (addKeyword m r) c e h hcrest
      rw [addKeyword] at h'
      by_cases hkm : hasKey m r.chunk_id = true
      · rw [if_pos hkm, hcr] at h'
        obtain ⟨e₀, h1, h2⟩ := mem_updateEntry_key hnd h'
        exact ⟨r, List.mem_cons_self _ _, hcr.symm, by rw [h2], by rw [h2]⟩
      · rw [if_neg hkm] at h'
        rcases List.mem_append.mp h' with h'' | h''
        · exact absurd ((hasKey_iff m r.chunk_id).mpr
            (List.mem_map.mpr ⟨(c, e), h'', hcr⟩)) hkm
        · have h2 : e = mergedOfKeyword r := by
            simpa using congrArg Prod.snd (List.mem_singleton.mp h'')
          exact ⟨r, List.mem_cons_self _ _, hcr.symm, by rw [h2]; rfl,
            by rw [h2]; rfl⟩

/-- The position of a fragment id in the order "vector results first, then
keyword results": its first occurrence index in the concatenated id stream. -/
def fuseRank (vector_results : List VectorHit) (keyword_results : List KeywordHit)
    (c : Nat) : Nat :=
  firstIdx (vector_results.map VectorHit.chunk_id ++
    keyword_results.map KeywordHit.chunk_id) c

/-- Inserting an element whose rank is below everything in a list that already
relates ties to ranks keeps that relation: the elements the insertion skips
have strictly greater scores, so they never tie with the inserted one. -/
lemma orderedInsert_tie_rank (rk : CombinedResult → ℕ) (a : CombinedResult) :
    ∀ t : List CombinedResult,
    t.Pairwise (fun x y => x.score = y.score → rk x < rk y) →
    (∀ y ∈ t, rk a < rk y) →
    (t.orderedInsert scoreGE a).Pairwise
      (fun x y => x.score = y.score → rk x < rk y) := by
  intro t
  induction t with
  | nil =>
    intro _ _
    simp
  | cons y t ih =>
    intro hp ha
    rw [List.orderedInsert]
    by_cases hr : scoreGE a y
    · rw [if_pos hr]
      rw [List.pairwise_cons]
      refine ⟨?_, hp⟩
      intro z hz _
      exact ha z hz
    · rw [if_neg hr]
      rw [List.pairwise_cons] at hp ⊢
      refine ⟨?_, ih hp.2 (fun z hz => ha z (List.mem_cons_of_mem _ hz))⟩
      intro z hz hsc
      rcases (List.mem_orderedInsert _).mp hz with hz | hz
      · exfalso
        rw [scoreGE, not_le] at hr
        rw [hz] at hsc
        exact absurd hsc (ne_of_gt hr)
      · exact hp.1 z hz hsc

/-- Stability of the modelled sort: if the input relates strictly increasing
ranks, the sorted output still ranks ties in input order. -/
lemma insertionSort_tie_rank (rk : CombinedResult → ℕ) :
    ∀ l : List CombinedResult,
    l.Pairwise (fun x y => rk x < rk y) →
    (l.insertionSort scoreGE).Pairwise
      (fun x y => x.score = y.score → rk x < rk y) := by
  intro l
  induction l with
  | nil => intro _; simp
  | cons a l ih =>
    intro hp
    rw [List.pairwise_cons] at hp
    rw [List.insertionSort]
    refine orderedInsert_tie_rank rk a _ (ih hp.2) ?_
    intro y hy
    exact hp.1 y ((List.mem_insertionSort _).mp hy)

/-- The left fold of `min` over a list returns a member of the initial value
and list that is a lower bound of both. -/
lemma foldl_min_spec :
    ∀ (l : List ℚ) (a : ℚ),
    (l.foldl min a = a ∨ l.foldl min a ∈ l) ∧
      l.foldl min a ≤ a ∧ ∀ x ∈ l, l.foldl min a ≤ x := by
  intro l
  induction l with
  | nil => intro a; exact ⟨Or.inl rfl, le_refl a, by simp⟩
  | cons b t ih =>
    intro a
    obtain ⟨hmem, hle, hall⟩ := ih (min a b)
    rw [List.foldl_cons]
    refine ⟨?_, le_trans hle (min_le_left a b), ?_⟩
    · rcases hmem with h | h
      · rcases min_choice a b with hc | hc
        · exact Or.inl (h.trans hc)
        · exact Or.inr (by rw [h, hc]; exact List.mem_cons_self _ _)
      · exact Or.inr (List.mem_cons_of_mem _ h)
    · intro x hx
      rcases List.mem_cons.mp hx with hx | hx
      · rw [hx]
        exact le_trans hle (min_le_right a b)
      · exact hall x hx

/-- The left fold of `max` over a list returns a member of the initial value
and list that is an upper bound of both. -/
lemma foldl_max_spec :
    ∀ (l : List ℚ) (a : ℚ),
    (l.foldl max a = a ∨ l.foldl max a ∈ l) ∧
      a ≤ l.foldl max a ∧ ∀ x ∈ l, x ≤ l.foldl max a := by
  intro l
  induction l with
  | nil => intro a; exact ⟨Or.inl rfl, le_refl a, by simp⟩
  | cons b t ih =>
    intro a
    obtain ⟨hmem, hle, hall⟩ := ih (max a b)
    rw [List.foldl_cons]
    refine ⟨?_, le_trans (le_max_left a b) hle, ?_⟩
    · rcases hmem with h | h
      · rcases max_choice a b with hc | hc
        · exact Or.inl (h.trans hc)
        · exact Or.inr (by rw [h, hc]; exact List.mem_cons_self _ _)
      · exact Or.inr (List.mem_cons_of_mem _ h)
    · intro x hx
      rcases List.mem_cons.mp hx with hx | hx
      · rw [hx]
        exact le_trans (le_max_right a b) hle
      · exact hall x hx

/-- Unfolding of normalization on a non-empty list. -/
lemma normalize_cons {α : Type} (getS : α → ℚ) (setS : ℚ → α → α)
    (r0 : α) (rest : List α) :
    _normalize_scores getS setS (r0 :: rest) =
      if (rest.map getS).foldl max (getS r0) -
          (rest.map getS).foldl min (getS r0) < scoreEps then
        (r0 :: rest).map (setS 1)
      else
        (r0 :: rest).map (fun r =>
          setS ((getS r - (rest.map getS).foldl min (getS r0)) /
            ((rest.map getS).foldl max (getS r0) -
              (rest.map getS).foldl min (getS r0))) r) := rfl

/-- The fold computing `min(scores)` returns the unique lower bound that is a
member. -/
lemma foldl_min_eq {l : List ℚ} {a lo : ℚ} (hlo : lo ∈ a :: l)
    (hb : ∀ s ∈ a :: l, lo ≤ s) : l.foldl min a = lo := by
  obtain ⟨hmem, hle, hall⟩ := foldl_min_spec l a
  apply le_antisymm
  · rcases List.mem_cons.mp hlo with h | h
    · rw [h]; exact hle
    · exact hall lo h
  · refine hb _ ?_
    rcases hmem with h | h
    · rw [h]; exact List.mem_cons_self _ _
    · exact List.mem_cons_of_mem _ h

/-- The fold computing `max(scores)` returns the unique upper bound that is a
member. -/
lemma foldl_max_eq {l : List ℚ} {a hi : ℚ} (hhi : hi ∈ a :: l)
    (hb : ∀ s ∈ a :: l, s ≤ hi) : l.foldl max a = hi := by
  obtain ⟨hmem, hle, hall⟩ := foldl_max_spec l a
  apply le_antisymm
  · refine hb _ ?_
    rcases hmem with h | h
    · rw [h]; exact List.mem_cons_self _ _
    · exact List.mem_cons_of_mem _ h
  · rcases List.mem_cons.mp hhi with h | h
    · rw [h]; exact hle
    · exact hall hi h

/-- C2: score normalization is min-max scaling per list.  Empty lists stay
empty; when `max - min < 1e-10` (all scores equal or a singleton) every score
becomes `1.0`; otherwise each score `s` becomes `(s - min)/(max - min)`.  In
particular `[1,3,5]` normalizes to `[0, 1/2, 1]` and `[4,4,4]` to
`[1,1,1]`. -/
theorem C2_minmax_normalization {α : Type} (getS : α → ℚ) (setS : ℚ → α → α) :
    _normalize_scores getS setS ([] : List α) = [] ∧
    (∀ (results : List α) (lo hi : ℚ),
      lo ∈ results.map getS → hi ∈ results.map getS →
      (∀ s ∈ results.map getS, lo ≤ s ∧ s ≤ hi) →
      (hi - lo < scoreEps →
        _normalize_scores getS setS results = results.map (setS 1)) ∧
      (scoreEps ≤ hi - lo →
        _normalize_scores getS setS results =
          results.map (fun r => setS ((getS r - lo) / (hi - lo)) r))) ∧
    _normalize_scores (fun s : ℚ => s) (fun s _ => s) [1, 3, 5] = [0, 1/2, 1] ∧
    _normalize_scores (fun s : ℚ => s) (fun s _ => s) [4, 4, 4] = [1, 1, 1] := by
  refine ⟨rfl, ?_, by norm_num [_normalize_scores, scoreEps],
    by norm_num [_normalize_scores, scoreEps]⟩
  intro results lo hi hlo hhi hb
  match results with
  | [] => simp at hlo
  | r0 :: rest =>
    rw [List.map_cons] at hlo hhi hb
    have hmin : (rest.map getS).foldl min (getS r0) = lo :=
      foldl_min_eq hlo (fun s hs => (hb s hs).1)
    have hmax : (rest.map getS).foldl max (getS r0) = hi :=
      foldl_max_eq hhi (fun s hs => (hb s hs).2)
    rw [normalize_cons, hmin, hmax]
    constructor
    · intro hlt
      rw [if_pos hlt]
    · intro hge
      rw [if_neg (not_lt.mpr hge)]

/-- Witness for C2 at the concrete score list `[1,3,5]` with `lo = 1`,
`hi = 5`. -/
theorem C2_witness :
    _normalize_scores (fun s : ℚ => s) (fun s _ => s) [1, 3, 5] =
      [1, 3, 5].map (fun r : ℚ => (r - 1) / (5 - 1)) :=
  (((C2_minmax_normalization (fun s : ℚ => s) (fun s _ => s)).2.1
    [1, 3, 5] 1 5 (by norm_num) (by norm_num) (by norm_num)).2
    (by rw [scoreEps_eq]; norm_num))

/-- After the vector pass, a key is in the map exactly when it occurs among
the vector hits' chunk ids. -/
lemma mem_keys_foldVector (vector_results : List VectorHit) (c : Nat) :
    c ∈ ((normVec vector_results).foldl addVector []).map Prod.fst ↔
      c ∈ vector_results.map VectorHit.chunk_id := by
  rw [keys_foldVector, normVec_ids]
  simpa using mem_foldIds (vector_results.map VectorHit.chunk_id) []

lemma nodup_keys_foldVector (vector_results : List VectorHit) :
    (((normVec vector_results).foldl addVector []).map Prod.fst).Nodup := by
  rw [keys_foldVector]
  exact nodup_foldIds _ _ (by simp)

/-- C1: the fusion merge assigns each fragment appearing only in the vector
list a `keyword_score` of `0.0`, each fragment appearing only in the keyword
list a `vector_score` of `0.0`, a fragment appearing in both keeps both
normalized scores together with the keyword list's `highlighted` text, and
every merged entry's combined score equals
`vector_score * vector_weight + keyword_score * (1 - vector_weight)`. -/
theorem C1_merge_and_combine (vector_results : List VectorHit)
    (keyword_results : List KeywordHit) (vector_weight : ℚ)
    (_hw0 : 0 ≤ vector_weight) (_hw1 : vector_weight ≤ 1) :
    ∀ e ∈ _combine_results vector_results keyword_results vector_weight,
      (e.chunk_id ∉ keyword_results.map KeywordHit.chunk_id →
        e.keyword_score = 0) ∧
      (e.chunk_id ∉ vector_results.map VectorHit.chunk_id →
        e.vector_score = 0) ∧
      (e.chunk_id ∈ vector_results.map VectorHit.chunk_id →
        e.chunk_id ∈ keyword_results.map KeywordHit.chunk_id →
        (∃ hv ∈ normVec vector_results, hv.chunk_id = e.chunk_id ∧
          e.vector_score = hv.score) ∧
        (∃ hk ∈ normKw keyword_results, hk.chunk_id = e.chunk_id ∧
          e.keyword_score = hk.score ∧ e.highlighted_text = hk.highlighted)) ∧
      e.score = e.vector_score * vector_weight +
        e.keyword_score * (1 - vector_weight) := by
  intro e he
  rw [_combine_results] at he
  obtain ⟨⟨c, me⟩, hmem, hee⟩ := List.mem_map.mp he
  subst hee
  refine ⟨?_, ?_, ?_, rfl⟩
  · -- vector-only: the keyword pass never touched this key
    intro hnk
    have hnk' : c ∉ (normKw keyword_results).map KeywordHit.chunk_id := by
      rwa [normKw_ids]
    have h1 := kw_untouched _ _ _ _ hmem hnk'
    rcases mem_foldVector _ _ _ _ h1 with h | ⟨r, _, _, h2⟩
    · simp at h
    · rw [h2]
      rfl
  · -- keyword-only: every entry at a key outside the vector ids has
    -- vector_score 0
    intro hnv
    refine kw_invariant
      (fun c' e' => c' ∉ vector_results.map VectorHit.chunk_id →
        e'.vector_score = 0)
      (fun _ _ _ hP h => hP h) (fun _ _ => rfl) _ _ ?_ c me hmem hnv
    intro c' e' h' hnv'
    exfalso
    refine hnv' ?_
    refine (mem_keys_foldVector vector_results c').mp ?_
    exact List.mem_map.mpr ⟨(c', e'), h', rfl⟩
  · -- present in both lists
    intro hv hk
    have hcm : c ∈ ((normVec vector_results).foldl addVector []).map Prod.fst :=
      (mem_keys_foldVector vector_results c).mpr hv
    obtain ⟨e₀, h1, _, _, _, hvs⟩ :=
      kw_base _ _ (nodup_keys_foldVector vector_results) c me hmem hcm
    rcases mem_foldVector _ _ _ _ h1 with h | ⟨r, hr, hrc, h2⟩
    · simp at h
    · refine ⟨⟨r, hr, hrc, ?_⟩, ?_⟩
      · show me.vector_score = r.score
        rw [hvs, h2]
        rfl
      · have hk' : c ∈ (normKw keyword_results).map KeywordHit.chunk_id := by
          rwa [normKw_ids]
        obtain ⟨rk, hrk, h3, h4, h5⟩ :=
          kw_upd _ _ (nodup_keys_foldVector vector_results) c me hmem hk'
        exact ⟨rk, hrk, h3, h4, h5⟩

/-- C10: the fused list has at most one entry per `chunk_id`, and whenever a
fragment occurs in the vector list, the merged entry's base fields (text,
document id, metadata) come from a vector hit with that id. -/
theorem C10_unique_per_chunk (vector_results : List VectorHit)
    (keyword_results : List KeywordHit) (vector_weight : ℚ) :
    ((_combine_results vector_results keyword_results vector_weight).map
      CombinedResult.chunk_id).Nodup ∧
    ∀ e ∈ _combine_results vector_results keyword_results vector_weight,
      e.chunk_id ∈ vector_results.map VectorHit.chunk_id →
      ∃ hv ∈ vector_results, hv.chunk_id = e.chunk_id ∧ e.text = hv.text ∧
        e.document_id = hv.document_id ∧ e.metadata = hv.payload_extra := by
  constructor
  · rw [_combine_results, List.map_map]
    have hcomp : (CombinedResult.chunk_id ∘ toCombined vector_weight) =
        Prod.fst := rfl
    rw [hcomp, keys_foldKeyword]
    exact nodup_foldIds _ _ (nodup_keys_foldVector vector_results)
  · intro e he hv
    rw [_combine_results] at he
    obtain ⟨⟨c, me⟩, hmem, hee⟩ := List.mem_map.mp he
    subst hee
    have hcm : c ∈ ((normVec vector_results).foldl addVector []).map Prod.fst :=
      (mem_keys_foldVector vector_results c).mpr hv
    obtain ⟨e₀, h1, ht, hd, hm, _⟩ :=
      kw_base _ _ (nodup_keys_foldVector vector_results) c me hmem hcm
    rcases mem_foldVector _ _ _ _ h1 with h | ⟨r, hr, hrc, h2⟩
    · simp at h
    · obtain ⟨r₀, hr₀, s, hrs⟩ := mem_norm VectorHit.score
        (fun s r => { r with score := s }) hr
      refine ⟨r₀, hr₀, ?_, ?_, ?_, ?_⟩
      · show r₀.chunk_id = c
        have : r.chunk_id = r₀.chunk_id := by rw [hrs]
        rw [← this, hrc]
      · show me.text = r₀.text
        rw [ht, h2, hrs]
        rfl
      · show me.document_id = r₀.document_id
        rw [hd, h2, hrs]
        rfl
      · show me.metadata = r₀.payload_extra
        rw [hm, h2, hrs]
        rfl

/-- C4: the fused output is sorted descending by combined score; entries with
equal combined scores appear in original vector-result order followed by
keyword-result order (`fuseRank` is exactly the first-occurrence position in
that concatenated order); and fusion is a pure function, so two runs on
identical inputs produce identical output orderings. -/
theorem C4_sorted_stable_deterministic (vector_results : List VectorHit)
    (keyword_results : List KeywordHit) (vector_weight : ℚ) :
    (hybridFuse vector_results keyword_results vector_weight).Sorted scoreGE ∧
    (hybridFuse vector_results keyword_results vector_weight).Pairwise
      (fun a b => a.score = b.score →
        fuseRank vector_results keyword_results a.chunk_id <
          fuseRank vector_results keyword_results b.chunk_id) ∧
    hybridFuse vector_results keyword_results vector_weight =
      hybridFuse vector_results keyword_results vector_weight := by
  refine ⟨List.sorted_insertionSort scoreGE _, ?_, rfl⟩
  rw [hybridFuse, sortCombined]
  refine insertionSort_tie_rank _ _ ?_
  rw [_combine_results]
  rw [List.pairwise_map]
  have hkeys : ((((normKw keyword_results).foldl addKeyword
      ((normVec vector_results).foldl addVector [])).map Prod.fst).Pairwise
      (fun a b => fuseRank vector_results keyword_results a <
        fuseRank vector_results keyword_results b)) := by
    rw [keys_foldKeyword, keys_foldVector, normKw_ids, normVec_ids]
    rw [show ([] : List (Nat × Merged)).map Prod.fst = [] from rfl]
    rw [← foldIds_append]
    exact foldIds_rank _ _ [] [] (by simp) (by simp) (by simp)
  rw [List.pairwise_map] at hkeys
  exact hkeys

/-- Witness for C1 at a concrete fusion: one vector hit and two keyword hits,
fragment 1 in both lists, `vector_weight = 1`. -/
theorem C1_witness :
    let e : CombinedResult :=
      { chunk_id := 1, document_id := 10, text := "a", score := 1,
        vector_score := 1, keyword_score := 1, highlighted_text := some "h",
        metadata := [] }
    (∃ hv ∈ normVec [⟨1, 10, "a", 3, []⟩],
      hv.chunk_id = e.chunk_id ∧ e.vector_score = hv.score) ∧
    (∃ hk ∈ normKw [⟨1, 10, "a", 7, some "h", []⟩, ⟨2, 11, "b", 7, none, []⟩],
      hk.chunk_id = e.chunk_id ∧ e.keyword_score = hk.score ∧
      e.highlighted_text = hk.highlighted) :=
  (C1_merge_and_combine [⟨1, 10, "a", 3, []⟩]
    [⟨1, 10, "a", 7, some "h", []⟩, ⟨2, 11, "b", 7, none, []⟩] 1
    (by norm_num) (by norm_num)
    { chunk_id := 1, document_id := 10, text := "a", score := 1,
      vector_score := 1, keyword_score := 1, highlighted_text := some "h",
      metadata := [] }
    (by norm_num [_combine_results, normVec, normKw, _normalize_scores,
      scoreEps_eq, addVector, addKeyword, setEntry, updateEntry, hasKey,
      mergedOfVector, mergedOfKeyword, toCombined])).2.2.1
    (by norm_num) (by norm_num)

/-- Witness for C10 at the same concrete fusion, for the merged entry of
fragment 1 (present in the vector list). -/
theorem C10_witness :
    let e : CombinedResult :=
      { chunk_id := 1, document_id := 10, text := "a", score := 1,
        vector_score := 1, keyword_score := 1, highlighted_text := some "h",
        metadata := [] }
    ∃ hv ∈ ([⟨1, 10, "a", 3, []⟩] : List VectorHit),
      hv.chunk_id = e.chunk_id ∧ e.text = hv.text ∧
      e.document_id = hv.document_id ∧ e.metadata = hv.payload_extra :=
  (C10_unique_per_chunk [⟨1, 10, "a", 3, []⟩]
    [⟨1, 10, "a", 7, some "h", []⟩, ⟨2, 11, "b", 7, none, []⟩] 1).2
    { chunk_id := 1, document_id := 10, text := "a", score := 1,
      vector_score := 1, keyword_score := 1, highlighted_text := some "h",
      metadata := [] }
    (by norm_num [_combine_results, normVec, normKw, _normalize_scores,
      scoreEps_eq, addVector, addKeyword, setEntry, updateEntry, hasKey,
      mergedOfVector, mergedOfKeyword, toCombined])
    (by norm_num)

end Hybrid

namespace Embedding

/-- Embeds `np.dot(vec1, vec2)` for equal-length 1-d vectors. -/
def dot (a b : List ℚ) : ℚ :=
  ((a.zip b).map (fun p => p.1 * p.2)).sum

/-- The squared Euclidean norm, `np.linalg.norm(v) ** 2`; `norm v` itself is
`Real.sqrt (normSq v)`. -/
def normSq (a : List ℚ) : ℚ :=
  (a.map (fun x => x * x)).sum

/-- The IEEE-754 float value returned by `EmbeddingService.similarity`:
either an ordinary real number, or the non-finite results of dividing by a
zero norm product (`0/0 = nan`, `±x/0 = ±inf`; numpy emits a warning, not an
exception, for both). -/
inductive SimValue where
  | val (x : ℝ)
  | nan
  | posInf
  | negInf

/-- Embeds `EmbeddingService.similarity`:
`np.dot(vec1, vec2) / (np.linalg.norm(vec1) * np.linalg.norm(vec2))`, with
the zero-denominator cases resolved by IEEE float division semantics. -/
noncomputable def similarity (a b : List ℚ) : SimValue :=
  if normSq a = 0 ∨ normSq b = 0 then
    if dot a b = 0 then .nan
    else if 0 < dot a b then .posInf
    else .negInf
  else
    .val ((dot a b : ℝ) / (Real.sqrt (normSq a) * Real.sqrt (normSq b)))

lemma normSq_nonneg (a : List ℚ) : 0 ≤ normSq a := by
  induction a with
  | nil => simp [normSq]
  | cons x t ih =>
    rw [normSq, List.map_cons, List.sum_cons]
    have := mul_self_nonneg x
    rw [normSq] at ih
    nlinarith

lemma normSq_eq_zero {a : List ℚ} (h : normSq a = 0) : ∀ x ∈ a, x = 0 := by
  induction a with
  | nil => simp
  | cons x t ih =>
    rw [normSq, List.map_cons, List.sum_cons] at h
    have h1 : 0 ≤ x * x := mul_self_nonneg x
    have h2 : 0 ≤ (t.map (fun x => x * x)).sum := by
      have := normSq_nonneg t
      rwa [normSq] at this
    have hx : x * x = 0 := by nlinarith
    have ht : normSq t = 0 := by rw [normSq]; nlinarith
    intro y hy
    rcases List.mem_cons.mp hy with hy | hy
    · rw [hy]
      exact mul_self_eq_zero.mp hx
    · exact ih ht y hy

lemma dot_zero_left {a : List ℚ} (ha : ∀ x ∈ a, x = 0) (b : List ℚ) :
    dot a b = 0 := by
  induction a generalizing b with
  | nil => simp [dot]
  | cons x t ih =>
    cases b with
    | nil => simp [dot]
    | cons y u =>
      rw [dot, List.zip_cons_cons, List.map_cons, List.sum_cons]
      rw [ha x (List.mem_cons_self _ _), zero_mul, zero_add]
      exact ih (fun z hz => ha z (List.mem_cons_of_mem _ hz)) u

lemma dot_zero_right (a : List ℚ) {b : List ℚ} (hb : ∀ x ∈ b, x = 0) :
    dot a b = 0 := by
  induction a generalizing b with
  | nil => simp [dot]
  | cons x t ih =>
    cases b with
    | nil => simp [dot]
    | cons y u =>
      rw [dot, List.zip_cons_cons, List.map_cons, List.sum_cons]
      rw [hb y (List.mem_cons_self _ _), mul_zero, zero_add]
      exact ih (fun z hz => hb z (List.mem_cons_of_mem _ hz))

/-- C7 fails on the code: with a zero-norm vector, `similarity` returns the
float NaN produced by `0.0 / 0.0` (numpy emits only a warning) instead of
signalling an error.  Shown at the concrete input `a = [1]`, `b = [0]`. -/
theorem C7_counterexample : similarity [1] [0] = .nan := by
  have h1 : normSq [(0 : ℚ)] = 0 := by norm_num [normSq]
  have h2 : dot [(1 : ℚ)] [0] = 0 := by norm_num [dot]
  rw [similarity, if_pos (Or.inr h1), if_pos h2]

/-- C7 amended: `similarity` returns `dot(a,b) / (‖a‖·‖b‖)` when both vectors
have nonzero norm; when either vector has zero norm it returns the float NaN
(the zero norm forces a zero dot product, so the division is `0/0`) rather
than signalling an error. -/
theorem C7_cosine_and_nan :
    (∀ a b : List ℚ, normSq a = 0 ∨ normSq b = 0 → similarity a b = .nan) ∧
    (∀ a b : List ℚ, normSq a ≠ 0 → normSq b ≠ 0 →
      similarity a b =
        .val ((dot a b : ℝ) /
          (Real.sqrt (normSq a) * Real.sqrt (normSq b)))) := by
  constructor
  · intro a b h
    have hdot : dot a b = 0 := by
      rcases h with h | h
      · exact dot_zero_left (normSq_eq_zero h) b
      · exact dot_zero_right a (normSq_eq_zero h)
    rw [similarity, if_pos h, if_pos hdot]
  · intro a b ha hb
    rw [similarity, if_neg (by push_neg; exact ⟨ha, hb⟩)]

/-- Witness for C7 (amended) at the zero vector `[0]` against `[1]`. -/
theorem C7_witness : similarity [0] [1] = .nan :=
  C7_cosine_and_nan.1 [0] [1] (Or.inl (by norm_num [normSq]))

end Embedding

namespace Orchestrator

/-- The `ProcessingStatus` enum of `models/document.py`. -/
inductive ProcessingStatus where
  | pending
  | processing
  | completed
  | failed
deriving Repr, DecidableEq

/-- The session-visible fields of a `Document` row touched by
`process_document_task` (timestamps and the wall-clock `processing_time` are
real-time effects and are not modelled). -/
structure DocRecord where
  status : ProcessingStatus
  error_message : Option String
  title : Option String
  company : Option String
  document_type : Option String
  page_count : Option Nat
  chunk_count : Nat
deriving Repr, DecidableEq

/-- A persisted `Chunk` row. -/
structure ChunkRow where
  id : Nat
  document_id : Nat
  chunk_index : Nat
  text : List Char
  token_count : Nat
  page_number : Option Int
  vector_id : Option Nat
  search_id : Option Nat
deriving Repr, DecidableEq

/-- The relational state the task reads and writes: the document row under
processing and the chunk table. -/
structure DBState where
  document : Option DocRecord
  chunks : List ChunkRow
deriving Repr, DecidableEq

/-- The metadata `PDFParser.extract_text` returns (only the fields the task
reads). -/
structure PdfMeta where
  page_count : Nat
  title : String
deriving Repr, DecidableEq

/-- A Qdrant payload prepared by the task.  In the code `chunk_id` starts as
`None` and is filled in after `db.flush()` assigns row ids; the model builds
the payloads after the flush, so it carries the id directly. -/
structure VectorPayload where
  chunk_id : Nat
  document_id : Nat
  text : List Char
  page_number : Option Int
  company : Option String
  document_type : Option String
deriving Repr, DecidableEq

/-- An Elasticsearch document prepared by the task (metadata flattened;
`document_date` is not modelled). -/
structure SearchDoc where
  chunk_id : Nat
  document_id : Nat
  text : List Char
  page_number : Option Int
  company : Option String
  document_type : Option String
  chunk_index : Nat
deriving Repr, DecidableEq

/-- The external collaborators of the task, as outcome-returning functions:
storage download, the two PDF extraction calls, batched embedding, the vector
index write, and the per-chunk lexical index write.  `B` is the opaque type of
file bytes and `E` of embedding vectors. -/
structure OrchEnv (B E : Type) where
  download : Except String B
  extract_text : B → Except String (List Char × PdfMeta)
  extract_text_by_page : B → Except String (List (Int × List Char))
  encode_batch : List (List Char) → Except String (List E)
  add_vectors : List E → List VectorPayload → Except String (List Nat)
  index_chunk : SearchDoc → Except String Nat

/-- The dictionary `process_document_task` returns. -/
inductive TaskResult where
  | notFound
  | success (chunks : Nat)
  | failure (message : String)
deriving Repr, DecidableEq

/-- The `except Exception` block of the task: re-read the document from the
session, set `failed` and the error text verbatim, and commit. -/
def failWith (db : DBState) (e : String) : DBState × TaskResult :=
  ({ db with
     document := db.document.map (fun d =>
       { d with status := .failed, error_message := some e }) },
   .failure e)

/-- Python truthiness of `document.title` (`None` and `""` are falsy). -/
def titleFalsy : Option String → Bool
  | none => true
  | some s => s = ""

/-- The Elasticsearch indexing loop: each chunk row in turn receives the
search id returned for its document.  On failure the error and the rows in
their current state (earlier ones updated, later ones not) are reported,
since the flushed rows stay in the session and are committed by the except
block. -/
def indexChunks (index_chunk : SearchDoc → Except String Nat) :
    List (ChunkRow × SearchDoc) → Except (String × List ChunkRow) (List ChunkRow)
  | [] => .ok []
  | (row, docu) :: rest =>
    match index_chunk docu with
    | .error e => .error (e, row :: rest.map Prod.fst)
    | .ok sid =>
      match indexChunks index_chunk rest with
      | .ok rows => .ok ({ row with search_id := some sid } :: rows)
      | .error (e, rows) => .error (e, { row with search_id := some sid } :: rows)

/-- Embeds `process_document_task`: mark `processing`, download, extract text
and pages, update document metadata, fragment page-aware, embed in one batch,
flush chunk rows (ids assigned), write vectors, index each chunk, then mark
`completed` with the chunk count.  Any step's error is caught and the
document is transitioned to `failed` with the message attached verbatim;
rows already flushed stay, because the except block commits the session. -/
def process_document_task {B E : Type} (env : OrchEnv B E)
    (chunk_size overlap : Nat) (document_id : Nat) (db : DBState) :
    DBState × TaskResult :=
  match db.document with
  | none => (db, .notFound)
  | some doc0 =>
    let doc1 := { doc0 with status := .processing }
    let db1 := { db with document := some doc1 }
    match env.download with
    | .error e => failWith db1 e
    | .ok file_bytes =>
      match env.extract_text file_bytes with
      | .error e => failWith db1 e
      | .ok (_full_text, metadata) =>
        match env.extract_text_by_page file_bytes with
        | .error e => failWith db1 e
        | .ok pages =>
          let doc2 := { doc1 with
            page_count := some metadata.page_count,
            title := if titleFalsy doc1.title ∧ metadata.title ≠ "" then
                some metadata.title
              else doc1.title }
          let db2 := { db1 with document := some doc2 }
          let chunks_data := Chunking.chunk_with_page_info chunk_size overlap pages
          let chunk_texts := chunks_data.map Chunking.Chunk.text
          match env.encode_batch chunk_texts with
          | .error e => failWith db2 e
          | .ok embeddings_list =>
            let zipped := chunks_data.zip embeddings_list
            let chunk_records := ((List.range zipped.length).zip zipped).map
              (fun p =>
                { id := db2.chunks.length + p.1, document_id := document_id,
                  chunk_index := p.2.1.chunk_index, text := p.2.1.text,
                  token_count := p.2.1.token_count,
                  page_number := p.2.1.page_number,
                  vector_id := none, search_id := none })
            let db3 := { db2 with chunks := db2.chunks ++ chunk_records }
            let vector_payloads := chunk_records.map (fun r =>
              { chunk_id := r.id, document_id := document_id, text := r.text,
                page_number := r.page_number, company := doc2.company,
                document_type := doc2.document_type })
            let search_docs := chunk_records.map (fun r =>
              { chunk_id := r.id, document_id := document_id, text := r.text,
                page_number := r.page_number, company := doc2.company,
                document_type := doc2.document_type,
                chunk_index := r.chunk_index })
            match env.add_vectors (zipped.map Prod.snd) vector_payloads with
            | .error e => failWith db3 e
            | .ok vector_ids =>
              let rows2 := ((chunk_records.zip vector_ids).map
                  (fun p => { p.1 with vector_id := some p.2 })) ++
                chunk_records.drop vector_ids.length
              let db4 := { db3 with chunks := db2.chunks ++ rows2 }
              match indexChunks env.index_chunk (rows2.zip search_docs) with
              | .error (e, rows) =>
                failWith { db4 with chunks := db2.chunks ++ rows } e
              | .ok rows3 =>
                let docF := { doc2 with status := .completed, chunk_count := chunk_records.length }
                ({ document := some docF, chunks := db2.chunks ++ rows3 },
                 .success chunk_records.length)

/-- C5: when the text extraction step raises (either the full-text or the
per-page call), the document is left in the `failed` state with the
triggering error's message attached verbatim, and no chunk rows are
created. -/
theorem C5_extraction_failure {B E : Type} (env : OrchEnv B E)
    (chunk_size overlap document_id : Nat) (db : DBState) (doc : DocRecord)
    (b : B) (e : String)
    (hdoc : db.document = some doc)
    (hdl : env.download = .ok b)
    (hex : env.extract_text b = .error e ∨
      (∃ x, env.extract_text b = .ok x ∧
        env.extract_text_by_page b = .error e)) :
    process_document_task env chunk_size overlap document_id db =
      ({ db with document := some { doc with status := .failed, error_message := some e } },
       .failure e) ∧
    (process_document_task env chunk_size overlap document_id db).1.chunks =
      db.chunks := by
  have hmain : process_document_task env chunk_size overlap document_id db =
      ({ db with document := some { doc with status := .failed, error_message := some e } },
       .failure e) := by
    rcases hex with hex | ⟨x, hok, hex⟩
    · rw [process_document_task]
      simp only [hdoc, hdl, hex]
      rfl
    · rw [process_document_task]
      simp only [hdoc, hdl, hok, hex]
      rfl
  exact ⟨hmain, by rw [hmain]⟩

/-- Witness for C5: a concrete environment whose full-text extraction fails
with the message `"boom"`, on a pending document with an empty chunk
table. -/
theorem C5_witness :
    process_document_task
      ({ download := .ok (), extract_text := fun _ => .error "boom",
         extract_text_by_page := fun _ => .ok [],
         encode_batch := fun _ => .ok [],
         add_vectors := fun _ _ => .ok [],
         index_chunk := fun _ => .ok 0 } : OrchEnv Unit Unit)
      50 10 7
      { document := some { status := .pending, error_message := none,
                           title := none, company := none,
                           document_type := none, page_count := none,
                           chunk_count := 0 },
        chunks := [] } =
    ({ document := some { status := .failed, error_message := some "boom",
                          title := none, company := none,
                          document_type := none, page_count := none,
                          chunk_count := 0 },
       chunks := [] },
     .failure "boom") :=
  (C5_extraction_failure
    ({ download := .ok (), extract_text := fun _ => .error "boom",
       extract_text_by_page := fun _ => .ok [],
       encode_batch := fun _ => .ok [],
       add_vectors := fun _ _ => .ok [],
       index_chunk := fun _ => .ok 0 } : OrchEnv Unit Unit)
    50 10 7
    { document := some { status := .pending, error_message := none,
                         title := none, company := none,
                         document_type := none, page_count := none,
                         chunk_count := 0 },
      chunks := [] }
    { status := .pending, error_message := none, title := none,
      company := none, document_type := none, page_count := none,
      chunk_count := 0 }
    () "boom" rfl rfl (Or.inl rfl)).1

end Orchestrator

end ResearchPlatform
